import Mathlib

/-!
Shallow embedding of the hexlit core (src/lib.rs): the preprocessor
`count_skipped`, the delimiter set `is_valid_delimiter`, the digit
converter `to_ordinal`, the decoder `convert`, and the `hex!` pipeline
(`decode_hex`).  Bytes and indices are modelled as `Nat` (all u8/usize
arithmetic in the source is overflow-free on the reachable values:
`to_ordinal` results are below 16, so `hi * 16 + lo ≤ 255`);
const-evaluation panics (out-of-bounds indexing, the invalid-digit
panic in `to_ordinal`, usize underflow) are modelled as `none`.

The while-loops of the source are written with an explicit fuel
argument so that they are structurally recursive and kernel-evaluable;
every loop advances its cursor by at least one position per iteration
and only iterates while the cursor is below the relevant length, so a
fuel equal to that length can never be exhausted.  The lemmas
`count_skipped_loop_fuel` and `convert_loop_fuel` prove this: any fuel
of at least the remaining distance gives the same result, hence the
chosen fuel computes the limit of the loop.
-/

set_option maxRecDepth 4000
set_option linter.unusedVariables false
set_option linter.unreachableTactic false
set_option linter.unnecessarySeqFocus false
set_option linter.unusedTactic false

namespace Hexlit

/-- Delimiter test from `is_valid_delimiter`: space (32), double-quote (34),
underscore (95), pipe (124), dash (45), newline (10). -/
def is_valid_delimiter (c : Nat) : Bool :=
  c == 32 || c == 34 || c == 95 || c == 124 || c == 45 || c == 10

/-- Digit conversion from `to_ordinal`: ASCII ranges of 0-9, A-F, a-f; any
other byte hits the const panic, modelled as `none`. -/
def to_ordinal (c : Nat) : Option Nat :=
  if 48 ≤ c ∧ c ≤ 57 then some (c - 48)
  else if 65 ≤ c ∧ c ≤ 70 then some (c - 65 + 10)
  else if 97 ≤ c ∧ c ≤ 102 then some (c - 97 + 10)
  else none

/-- Helper: a successful list lookup is in bounds. -/
theorem getElem?_some_lt {l : List Nat} {i c : Nat} (h : l[i]? = some c) :
    i < l.length := by
  by_contra hc
  rw [List.getElem?_eq_none (Nat.le_of_not_lt hc)] at h
  exact Option.noConfusion h

/-- Inner while-loop of `count_skipped`: starting at `next_index`, advance
over delimiters, incrementing `char_count` once per delimiter; return the
final `(next_index, char_count)`.  Reads are guarded by the length test, so
this loop never panics.  The loop body only runs while `next_index` is in
bounds, so a fuel of `data.length` is never exhausted at the call site. -/
def skipDelims (data : List Nat) : Nat → Nat → Nat → Nat × Nat
  | fuel, next_index, char_count =>
    match data[next_index]? with
    | some c =>
      if is_valid_delimiter c then
        match fuel with
        | 0 => (next_index, char_count)
        | fuel + 1 => skipDelims data fuel (next_index + 1) (char_count + 1)
      else (next_index, char_count)
    | none => (next_index, char_count)

/-- Outer loop of `count_skipped`.  At each position: if at least two bytes
remain and the current byte is not a delimiter, skip the following delimiter
run, add 2 when a `0x`/`0X` marker is recognized (reading `data[next_index]`,
which is out of bounds — `none` — when the delimiter run reaches the end of
the input and the current byte is `0`), and resume after the low byte;
otherwise count the current byte as skipped and advance by one. -/
def count_skipped_loop (data : List Nat) : Nat → Nat → Nat → Option Nat
  | fuel, char_index, char_count =>
    match data[char_index]? with
    | none => some char_count
    | some c =>
      match fuel with
      | 0 => none
      | fuel + 1 =>
        if char_index + 1 < data.length ∧ ¬ is_valid_delimiter c then
          let p := skipDelims data data.length (char_index + 1) char_count
          if c = 48 then
            match data[p.1]? with
            | none => none
            | some d =>
              count_skipped_loop data fuel (p.1 + 1)
                (if d = 120 ∨ d = 88 then p.2 + 2 else p.2)
          else count_skipped_loop data fuel (p.1 + 1) p.2
        else count_skipped_loop data fuel (char_index + 1) (char_count + 1)

/-- Preprocessor `count_skipped` from src/lib.rs. -/
def count_skipped (data : List Nat) : Option Nat :=
  count_skipped_loop data data.length 0 0

/-- Inner while-loop of `convert`: advance `next_index` over delimiters while
it is below `STRING_SIZE`; a read past the end of `input` (possible only when
`STRING_SIZE` exceeds the real length) is a panic, modelled as `none`.  The
loop body only runs while `next_index < S`, so a fuel of `S` is never
exhausted at the call site. -/
def find_next (S : Nat) (input : List Nat) : Nat → Nat → Option Nat
  | fuel, next_index =>
    if next_index < S then
      match input[next_index]? with
      | none => none
      | some c =>
        if is_valid_delimiter c then
          match fuel with
          | 0 => none
          | fuel + 1 => find_next S input fuel (next_index + 1)
        else some next_index
    else some next_index

/-- Outer loop of `convert`.  `S` is the const generic `STRING_SIZE`; `data`
is the output array (its length is the const generic `RESULT_SIZE`).  Reads
of `input` and the write `data[data_index] = ...` are modelled as panicking
(`none`) when out of bounds, like const evaluation of the source.  The loop
body only runs while `char_index + 1 < S`, so a fuel of `S` is never
exhausted at the call site. -/
def convert_loop (S : Nat) (input : List Nat) :
    Nat → List Nat → Nat → Nat → Option (List Nat)
  | fuel, data, data_index, char_index =>
    if data_index < S ∧ char_index + 1 < S then
      match fuel with
      | 0 => none
      | fuel + 1 =>
        match input[char_index]? with
        | none => none
        | some c =>
          if ¬ is_valid_delimiter c then
            match find_next S input S (char_index + 1) with
            | none => none
            | some next_index =>
              if c = 48 then
                match input[next_index]? with
                | none => none
                | some d =>
                  if d = 120 ∨ d = 88 then
                    convert_loop S input fuel data data_index (next_index + 1)
                  else
                    match to_ordinal c, to_ordinal d with
                    | some hi, some lo =>
                      if data_index < data.length then
                        convert_loop S input fuel
                          (data.set data_index (hi * 16 + lo))
                          (data_index + 1) (next_index + 1)
                      else none
                    | _, _ => none
              else
                match to_ordinal c with
                | none => none
                | some hi =>
                  match input[next_index]? with
                  | none => none
                  | some d =>
                    match to_ordinal d with
                    | none => none
                    | some lo =>
                      if data_index < data.length then
                        convert_loop S input fuel
                          (data.set data_index (hi * 16 + lo))
                          (data_index + 1) (next_index + 1)
                      else none
          else convert_loop S input fuel data data_index (char_index + 1)
    else some data

/-- Decoder `convert` from src/lib.rs: a zero-initialized output array of
length `RESULT_SIZE`, filled by `convert_loop`. -/
def convert (RESULT_SIZE STRING_SIZE : Nat) (input : List Nat) :
    Option (List Nat) :=
  convert_loop STRING_SIZE input STRING_SIZE (List.replicate RESULT_SIZE 0) 0 0

/-- The whole `hex!(@string ...)` pipeline on the bytes of the literal:
compute the skip count, subtract it from the length (usize underflow would
panic, modelled as `none`), require the remainder even (the type-level
`Even` guard: an odd remainder is a compile failure, modelled as `none`),
then run `convert` with `RESULT_SIZE = raw / 2` and `STRING_SIZE = len`. -/
def decode_hex (data : List Nat) : Option (List Nat) :=
  match count_skipped data with
  | none => none
  | some skip =>
    if skip ≤ data.length then
      if (data.length - skip) % 2 = 0 then
        convert ((data.length - skip) / 2) data.length data
      else none
    else none

/-- Bytes of a string literal (all inputs in the spec are ASCII). -/
def strBytes (s : String) : List Nat :=
  s.data.map Char.toNat

/-! ### Fuel adequacy

Each loop advances its cursor by at least one position per executed body and
only executes the body while the cursor is below the respective bound, so
any fuel at least that distance yields the same result: the definitions
above, which pass the full length as fuel, compute the limit of the
source's unbounded while-loops. -/

/-- The cursor of `skipDelims` never moves backwards. -/
theorem skipDelims_fst_ge (data : List Nat) :
    ∀ fuel next_index char_count,
      next_index ≤ (skipDelims data fuel next_index char_count).1 := by
  intro fuel
  induction fuel with
  | zero =>
    intro ni cc
    rw [skipDelims]
    cases data[ni]? with
    | none => exact Nat.le_refl ni
    | some c => by_cases hd : is_valid_delimiter c <;> simp [hd]
  | succ g ih =>
    intro ni cc
    rw [skipDelims]
    cases data[ni]? with
    | none => exact Nat.le_refl ni
    | some c =>
      by_cases hd : is_valid_delimiter c
      · simpa [hd] using Nat.le_trans (Nat.le_succ ni) (ih (ni + 1) (cc + 1))
      · simp [hd]

/-- Fuel stability of `skipDelims`: any two fuels covering the remaining
distance give the same value. -/
theorem skipDelims_fuel (data : List Nat) :
    ∀ f₁ f₂ next_index char_count, data.length - next_index ≤ f₁ →
      data.length - next_index ≤ f₂ →
      skipDelims data f₁ next_index char_count
        = skipDelims data f₂ next_index char_count := by
  intro f₁
  induction f₁ with
  | zero =>
    intro f₂ ni cc h1 h2
    have hg : data[ni]? = none := List.getElem?_eq_none (by omega)
    cases f₂ with
    | zero => rfl
    | succ g₂ =>
      rw [skipDelims, skipDelims]
      simp [hg]
  | succ g ih =>
    intro f₂ ni cc h1 h2
    cases f₂ with
    | zero =>
      have hg : data[ni]? = none := List.getElem?_eq_none (by omega)
      rw [skipDelims, skipDelims]
      simp [hg]
    | succ g₂ =>
      rw [skipDelims, skipDelims]
      cases hg : data[ni]? with
      | none => rfl
      | some c =>
        simp only [hg]
        by_cases hd : is_valid_delimiter c
        · have hlt := getElem?_some_lt hg
          simpa [hd] using ih g₂ (ni + 1) (cc + 1) (by omega) (by omega)
        · simp [hd]

/-- Fuel stability of `count_skipped_loop`. -/
theorem count_skipped_loop_fuel (data : List Nat) :
    ∀ f₁ f₂ char_index char_count, data.length - char_index ≤ f₁ →
      data.length - char_index ≤ f₂ →
      count_skipped_loop data f₁ char_index char_count
        = count_skipped_loop data f₂ char_index char_count := by
  intro f₁
  induction f₁ with
  | zero =>
    intro f₂ ci cc h1 h2
    rw [count_skipped_loop, count_skipped_loop]
    cases hg : data[ci]? with
    | none => rfl
    | some c =>
      have := getElem?_some_lt hg
      omega
  | succ g ih =>
    intro f₂ ci cc h1 h2
    rw [count_skipped_loop, count_skipped_loop]
    cases hg : data[ci]? with
    | none => rfl
    | some c =>
      have hlt := getElem?_some_lt hg
      cases f₂ with
      | zero => omega
      | succ g₂ =>
        simp only []
        by_cases hcond : ci + 1 < data.length ∧ ¬ is_valid_delimiter c
        · rw [if_pos hcond, if_pos hcond]
          have hge := skipDelims_fst_ge data data.length (ci + 1) cc
          by_cases h48 : c = 48
          · rw [if_pos h48, if_pos h48]
            cases data[(skipDelims data data.length (ci + 1) cc).1]? with
            | none => rfl
            | some d => exact ih g₂ _ _ (by omega) (by omega)
          · rw [if_neg h48, if_neg h48]
            exact ih g₂ _ _ (by omega) (by omega)
        · rw [if_neg hcond, if_neg hcond]
          exact ih g₂ (ci + 1) (cc + 1) (by omega) (by omega)

/-- The cursor returned by `find_next` never moves backwards. -/
theorem find_next_ge (S : Nat) (input : List Nat) :
    ∀ fuel next_index r, find_next S input fuel next_index = some r →
      next_index ≤ r := by
  intro fuel
  induction fuel with
  | zero =>
    intro ni r hr
    rw [find_next] at hr
    by_cases hlt : ni < S
    · rw [if_pos hlt] at hr
      cases hg : input[ni]? with
      | none => simp [hg] at hr
      | some c =>
        simp only [hg] at hr
        by_cases hd : is_valid_delimiter c
        · rw [if_pos hd] at hr; exact Option.noConfusion hr
        · rw [if_neg hd] at hr
          have := Option.some.inj hr
          omega
    · rw [if_neg hlt] at hr
      have := Option.some.inj hr
      omega
  | succ g ih =>
    intro ni r hr
    rw [find_next] at hr
    by_cases hlt : ni < S
    · rw [if_pos hlt] at hr
      cases hg : input[ni]? with
      | none => simp [hg] at hr
      | some c =>
        simp only [hg] at hr
        by_cases hd : is_valid_delimiter c
        · rw [if_pos hd] at hr
          have := ih (ni + 1) r hr
          omega
        · rw [if_neg hd] at hr
          have := Option.some.inj hr
          omega
    · rw [if_neg hlt] at hr
      have := Option.some.inj hr
      omega

/-- Fuel stability of `find_next`. -/
theorem find_next_fuel (S : Nat) (input : List Nat) :
    ∀ f₁ f₂ next_index, S - next_index ≤ f₁ → S - next_index ≤ f₂ →
      find_next S input f₁ next_index = find_next S input f₂ next_index := by
  intro f₁
  induction f₁ with
  | zero =>
    intro f₂ ni h1 h2
    cases f₂ with
    | zero => rfl
    | succ g₂ =>
      have hns : ¬ ni < S := by omega
      rw [find_next, find_next]
      simp [hns]
  | succ g ih =>
    intro f₂ ni h1 h2
    cases f₂ with
    | zero =>
      have hns : ¬ ni < S := by omega
      rw [find_next, find_next]
      simp [hns]
    | succ g₂ =>
      rw [find_next, find_next]
      by_cases hlt : ni < S
      · rw [if_pos hlt, if_pos hlt]
        cases hg : input[ni]? with
        | none => rfl
        | some c =>
          simp only []
          by_cases hd : is_valid_delimiter c
          · simp only [if_pos hd]
            exact ih g₂ (ni + 1) (by omega) (by omega)
          · simp only [if_neg hd]
      · rw [if_neg hlt, if_neg hlt]

/-- Fuel stability of `convert_loop`. -/
theorem convert_loop_fuel (S : Nat) (input : List Nat) :
    ∀ f₁ f₂ data data_index char_index, S - char_index ≤ f₁ →
      S - char_index ≤ f₂ →
      convert_loop S input f₁ data data_index char_index
        = convert_loop S input f₂ data data_index char_index := by
  intro f₁
  induction f₁ with
  | zero =>
    intro f₂ data di ci h1 h2
    cases f₂ with
    | zero => rfl
    | succ g₂ =>
      have hcond : ¬ (di < S ∧ ci + 1 < S) := by omega
      rw [convert_loop, convert_loop]
      rw [if_neg hcond, if_neg hcond]
  | succ g ih =>
    intro f₂ data di ci h1 h2
    cases f₂ with
    | zero =>
      have hcond : ¬ (di < S ∧ ci + 1 < S) := by omega
      rw [convert_loop, convert_loop]
      rw [if_neg hcond, if_neg hcond]
    | succ g₂ =>
      by_cases hcond : di < S ∧ ci + 1 < S
      · rw [convert_loop, convert_loop]
        rw [if_pos hcond, if_pos hcond]
        cases hg : input[ci]? with
        | none => rfl
        | some c =>
          simp only []
          by_cases hd : ¬ is_valid_delimiter c
          · simp only [if_pos hd]
            cases hn : find_next S input S (ci + 1) with
            | none => rfl
            | some ni =>
              have hni : ci + 1 ≤ ni := find_next_ge S input S (ci + 1) ni hn
              simp only []
              by_cases h48 : c = 48
              · simp only [if_pos h48]
                cases input[ni]? with
                | none => rfl
                | some d =>
                  simp only []
                  by_cases hx : d = 120 ∨ d = 88
                  · simp only [if_pos hx]
                    exact ih g₂ data di (ni + 1) (by omega) (by omega)
                  · simp only [if_neg hx]
                    cases to_ordinal c with
                    | none => rfl
                    | some hi =>
                      cases to_ordinal d with
                      | none => rfl
                      | some lo =>
                        simp only []
                        by_cases hw : di < data.length
                        · simp only [if_pos hw]
                          exact ih g₂ _ (di + 1) (ni + 1) (by omega) (by omega)
                        · simp only [if_neg hw]
              · simp only [if_neg h48]
                cases to_ordinal c with
                | none => rfl
                | some hi =>
                  simp only []
                  cases input[ni]? with
                  | none => rfl
                  | some d =>
                    simp only []
                    cases to_ordinal d with
                    | none => rfl
                    | some lo =>
                      simp only []
                      by_cases hw : di < data.length
                      · simp only [if_pos hw]
                        exact ih g₂ _ (di + 1) (ni + 1) (by omega) (by omega)
                      · simp only [if_neg hw]
          · simp only [if_neg hd]
            exact ih g₂ data di (ci + 1) (by omega) (by omega)
      · rw [convert_loop, convert_loop]
        rw [if_neg hcond, if_neg hcond]

/-! ### Structured inputs

The inputs the spec's positive properties talk about are sequences of
hex-digit pairs and `0x`/`0X` markers, interleaved with separator runs.
`HexItem` captures one pair or one marker, possibly with separators
between its two significant bytes; an input is a leading separator run
followed by items, each followed by its own separator run. -/

/-- A run of accepted separator bytes. -/
def DelimRun (s : List Nat) : Prop := ∀ c ∈ s, is_valid_delimiter c = true

instance : DecidablePred DelimRun := fun s =>
  List.decidableBAll (fun c => is_valid_delimiter c = true) s

/-- One significant element of an input: a digit pair `h mid l` (high byte,
separator run between the two digits, low byte) or a prefix marker
`pfx mid x` (the byte `0`, a separator run, then `x` or `X`). -/
inductive HexItem where
  | pair (h : Nat) (mid : List Nat) (l : Nat) : HexItem
  | pfx (mid : List Nat) (x : Nat) : HexItem

/-- The bytes of one item. -/
def HexItem.render : HexItem → List Nat
  | .pair h mid l => h :: (mid ++ [l])
  | .pfx mid x => 48 :: (mid ++ [x])

/-- Well-formedness: digits convert, marker letter is `x`/`X`, inner runs are
separators. -/
def HexItem.WF : HexItem → Prop
  | .pair h mid l => (to_ordinal h).isSome = true ∧ (to_ordinal l).isSome = true
      ∧ DelimRun mid
  | .pfx mid x => (x = 120 ∨ x = 88) ∧ DelimRun mid

instance : DecidablePred HexItem.WF := fun it => by
  cases it with
  | pair h mid l => exact inferInstanceAs (Decidable (_ ∧ _ ∧ _))
  | pfx mid x => exact inferInstanceAs (Decidable (_ ∧ _))

/-- Bytes the preprocessor skips inside one item: the inner separator run,
plus the two marker bytes of a prefix. -/
def HexItem.skipCount : HexItem → Nat
  | .pair _ mid _ => mid.length
  | .pfx mid _ => mid.length + 2

/-- The decoded byte of one item: `hi * 16 + lo` for a pair, nothing for a
prefix marker. -/
def HexItem.byteOf : HexItem → Option Nat
  | .pair h _ l => some ((to_ordinal h).getD 0 * 16 + (to_ordinal l).getD 0)
  | .pfx _ _ => none

/-- Items each followed by a separator run, rendered to input bytes. -/
def renderAll : List (HexItem × List Nat) → List Nat
  | [] => []
  | p :: rest => p.1.render ++ p.2 ++ renderAll rest

/-- Well-formedness of an item/separator-run sequence. -/
def ItemsWF (items : List (HexItem × List Nat)) : Prop :=
  ∀ p ∈ items, p.1.WF ∧ DelimRun p.2

instance : DecidablePred ItemsWF := fun items =>
  List.decidableBAll (fun p : HexItem × List Nat => p.1.WF ∧ DelimRun p.2) items

/-- Total skipped bytes of a sequence: inner runs, marker bytes, and the
separator runs after each item. -/
def skipOf : List (HexItem × List Nat) → Nat
  | [] => 0
  | p :: rest => p.1.skipCount + p.2.length + skipOf rest

/-- Decoded bytes of a sequence, in order. -/
def bytesOf : List (HexItem × List Nat) → List Nat
  | [] => []
  | p :: rest =>
    match p.1.byteOf with
    | some b => b :: bytesOf rest
    | none => bytesOf rest

/-- Number of prefix markers in a sequence. -/
def pfxCount : List (HexItem × List Nat) → Nat
  | [] => 0
  | (HexItem.pfx _ _, _) :: rest => pfxCount rest + 1
  | (HexItem.pair _ _ _, _) :: rest => pfxCount rest

/-- Number of separator bytes in a sequence (inner runs and trailing runs). -/
def sepOf : List (HexItem × List Nat) → Nat
  | [] => 0
  | (HexItem.pair _ mid _, sep) :: rest => mid.length + sep.length + sepOf rest
  | (HexItem.pfx mid _, sep) :: rest => mid.length + sep.length + sepOf rest

/-! ### Byte-class facts -/

/-- A byte accepted by `to_ordinal` lies in one of the three digit ranges. -/
theorem to_ordinal_ranges {c : Nat} (h : (to_ordinal c).isSome = true) :
    (48 ≤ c ∧ c ≤ 57) ∨ (65 ≤ c ∧ c ≤ 70) ∨ (97 ≤ c ∧ c ≤ 102) := by
  unfold to_ordinal at h
  split_ifs at h with h1 h2 h3
  · exact Or.inl h1
  · exact Or.inr (Or.inl h2)
  · exact Or.inr (Or.inr h3)
  · simp at h

/-- A byte accepted by `to_ordinal` is not a separator. -/
theorem to_ordinal_not_delim {c : Nat} (h : (to_ordinal c).isSome = true) :
    is_valid_delimiter c = false := by
  have hc := to_ordinal_ranges h
  simp only [is_valid_delimiter, Bool.or_eq_false_iff, beq_eq_false_iff_ne,
    ne_eq]
  omega

/-- A byte accepted by `to_ordinal` is not `x` or `X`. -/
theorem to_ordinal_not_x {c : Nat} (h : (to_ordinal c).isSome = true) :
    ¬ (c = 120 ∨ c = 88) := by
  have hc := to_ordinal_ranges h
  omega

/-- The marker letters are not separators. -/
theorem x_not_delim {x : Nat} (h : x = 120 ∨ x = 88) :
    is_valid_delimiter x = false := by
  cases h <;> subst_vars <;> rfl

/-- The byte `0` is not a separator. -/
theorem zero_byte_not_delim : is_valid_delimiter 48 = false := rfl

/-- The head byte of a well-formed item is not a separator. -/
theorem HexItem.head_not_delim {it : HexItem} (hwf : it.WF) :
    ∃ c tail, it.render = c :: tail ∧ is_valid_delimiter c = false := by
  cases it with
  | pair h mid l => exact ⟨h, mid ++ [l], rfl, to_ordinal_not_delim hwf.1⟩
  | pfx mid x => exact ⟨48, mid ++ [x], rfl, zero_byte_not_delim⟩

/-- Lookup at the length of a left factor. -/
theorem get_at_len (pre : List Nat) (c : Nat) (rest : List Nat) :
    (pre ++ c :: rest)[pre.length]? = some c := by
  rw [List.getElem?_append_right (Nat.le_refl _)]
  simp

/-! ### Runs of the two inner while-loops over structured suffixes -/

/-- Running `skipDelims` at the start of a separator run followed by a
non-separator: it consumes exactly the run. -/
theorem skipDelims_run (data pre mid rest : List Nat) (c : Nat)
    (hdata : data = pre ++ mid ++ c :: rest) (hmid : DelimRun mid)
    (hc : is_valid_delimiter c = false) :
    ∀ fuel char_count, mid.length ≤ fuel →
      skipDelims data fuel pre.length char_count
        = (pre.length + mid.length, char_count + mid.length) := by
  induction mid generalizing pre with
  | nil =>
    intro fuel cc _
    subst hdata
    cases fuel with
    | zero =>
      rw [skipDelims]
      simp only [List.append_nil, get_at_len, hc]
      simp
    | succ g =>
      rw [skipDelims]
      simp only [List.append_nil, get_at_len, hc]
      simp
  | cons m mid ih =>
    intro fuel cc hfuel
    cases fuel with
    | zero => simp at hfuel
    | succ g =>
      have hm : is_valid_delimiter m = true := hmid m (by simp)
      have hdata2 : data = (pre ++ [m]) ++ mid ++ c :: rest := by
        simp [hdata]
      have hget : data[pre.length]? = some m := by
        rw [hdata]
        rw [show pre ++ (m :: mid) ++ c :: rest = pre ++ m :: (mid ++ c :: rest) by simp]
        exact get_at_len pre m (mid ++ c :: rest)
      rw [skipDelims, hget]
      simp only [hm, if_true]
      have hlen : mid.length ≤ g := by
        simp only [List.length_cons] at hfuel
        omega
      have hrec := ih (pre ++ [m]) hdata2
        (fun d hd => hmid d (by simp [hd])) g (cc + 1) hlen
      simp only [List.length_append, List.length_cons, List.length_nil] at hrec
      rw [hrec]
      simp only [List.length_cons, Prod.mk.injEq]
      omega

/-- Running `find_next` at the start of a separator run followed by a
non-separator inside the input: it returns the position after the run. -/
theorem find_next_run (S : Nat) (input pre mid rest : List Nat) (c : Nat)
    (hinput : input = pre ++ mid ++ c :: rest) (hS : S = input.length)
    (hmid : DelimRun mid) (hc : is_valid_delimiter c = false) :
    ∀ fuel, mid.length ≤ fuel →
      find_next S input fuel pre.length = some (pre.length + mid.length) := by
  induction mid generalizing pre with
  | nil =>
    intro fuel _
    have hlen : S = pre.length + (rest.length + 1) := by
      subst hinput hS
      simp
    have hlt : pre.length < S := by omega
    have hget : input[pre.length]? = some c := by
      rw [hinput]
      rw [show pre ++ [] ++ c :: rest = pre ++ c :: rest by simp]
      exact get_at_len pre c rest
    cases fuel with
    | zero =>
      rw [find_next, if_pos hlt, hget]
      simp [hc]
    | succ g =>
      rw [find_next, if_pos hlt, hget]
      simp [hc]
  | cons m mid ih =>
    intro fuel hfuel
    cases fuel with
    | zero => simp at hfuel
    | succ g =>
      have hlen : S = pre.length + (m :: mid).length + (rest.length + 1) := by
        subst hinput hS
        simp
        omega
      have hlt : pre.length < S := by
        simp only [List.length_cons] at hlen
        omega
      have hm : is_valid_delimiter m = true := hmid m (by simp)
      have hget : input[pre.length]? = some m := by
        rw [hinput]
        rw [show pre ++ (m :: mid) ++ c :: rest
              = pre ++ m :: (mid ++ c :: rest) by simp]
        exact get_at_len pre m (mid ++ c :: rest)
      rw [find_next, if_pos hlt, hget]
      simp only [hm, if_true]
      have hinput2 : input = (pre ++ [m]) ++ mid ++ c :: rest := by
        simp [hinput]
      have hlen2 : mid.length ≤ g := by
        simp only [List.length_cons] at hfuel
        omega
      have hrec := ih (pre ++ [m]) hinput2
        (fun d hd => hmid d (by simp [hd])) g hlen2
      simp only [List.length_append, List.length_cons, List.length_nil] at hrec
      rw [hrec]
      simp only [List.length_cons]
      congr 1
      omega

/-! ### The preprocessor on structured inputs -/

/-- Stepping `count_skipped_loop` over a separator run: each separator costs
one unit of fuel and adds one to the count. -/
theorem csl_delims (data : List Nat) :
    ∀ sep, DelimRun sep → ∀ pre tail cc fuel,
      data = pre ++ sep ++ tail → sep.length ≤ fuel →
      count_skipped_loop data fuel pre.length cc
        = count_skipped_loop data (fuel - sep.length) (pre.length + sep.length)
            (cc + sep.length) := by
  intro sep
  induction sep with
  | nil =>
    intro _ pre tail cc fuel _ _
    simp
  | cons s sep ih =>
    intro hsep pre tail cc fuel hdata hfuel
    cases fuel with
    | zero => simp at hfuel
    | succ g =>
      have hs : is_valid_delimiter s = true := hsep s (by simp)
      have hget : data[pre.length]? = some s := by
        rw [hdata]
        rw [show pre ++ (s :: sep) ++ tail = pre ++ s :: (sep ++ tail) by simp]
        exact get_at_len pre s (sep ++ tail)
      have hcond : ¬ (pre.length + 1 < data.length ∧ ¬ is_valid_delimiter s = true) := by
        simp [hs]
      rw [count_skipped_loop, hget]
      simp only [if_neg hcond]
      have hdata2 : data = (pre ++ [s]) ++ sep ++ tail := by
        simp [hdata]
      have hrec := ih (fun d hd => hsep d (by simp [hd])) (pre ++ [s]) tail
        (cc + 1) g hdata2 (by simp only [List.length_cons] at hfuel; omega)
      simp only [List.length_append, List.length_cons, List.length_nil] at hrec
      rw [hrec]
      simp only [List.length_cons]
      congr 1 <;> omega

/-- Core run of the preprocessor: starting at a well-formed item sequence,
`count_skipped_loop` returns the count of all separator bytes plus two per
prefix marker. -/
theorem csl_items (data : List Nat) :
    ∀ items, ItemsWF items → ∀ pre cc fuel,
      data = pre ++ renderAll items → data.length - pre.length ≤ fuel →
      count_skipped_loop data fuel pre.length cc = some (cc + skipOf items) := by
  intro items
  induction items with
  | nil =>
    intro _ pre cc fuel hdata _
    have hget : data[pre.length]? = none := by
      apply List.getElem?_eq_none
      rw [hdata, renderAll]
      simp
    rw [count_skipped_loop, hget]
    simp [skipOf]
  | cons p rest ih =>
    intro hwf pre cc fuel hdata hfuel
    obtain ⟨it, sep⟩ := p
    have hitwf : it.WF := (hwf (it, sep) (by simp)).1
    have hsep : DelimRun sep := (hwf (it, sep) (by simp)).2
    have hrestwf : ItemsWF rest := fun q hq => hwf q (by simp [hq])
    cases it with
    | pair h mid l =>
      obtain ⟨hh, hl, hmid⟩ := hitwf
      have hshape : data = (pre ++ [h]) ++ mid ++ l :: (sep ++ renderAll rest) := by
        rw [hdata, renderAll, HexItem.render]
        simp
      have hlendata : data.length
          = pre.length + mid.length + 2 + (sep.length + (renderAll rest).length) := by
        rw [hshape]
        simp only [List.length_append, List.length_cons, List.length_nil,
          Nat.zero_add, Nat.add_zero]
        omega
      cases fuel with
      | zero => omega
      | succ g =>
        have hgeth : data[pre.length]? = some h := by
          rw [show data = pre ++ h :: (mid ++ l :: (sep ++ renderAll rest)) by
            rw [hshape] <;> simp]
          exact get_at_len pre h (mid ++ l :: (sep ++ renderAll rest))
        have hcond : pre.length + 1 < data.length ∧ ¬ is_valid_delimiter h = true := by
          constructor
          · omega
          · simp [to_ordinal_not_delim hh]
        rw [count_skipped_loop, hgeth]
        simp only [if_pos hcond]
        have hskip := skipDelims_run data (pre ++ [h]) mid (sep ++ renderAll rest) l
          hshape hmid (to_ordinal_not_delim hl) data.length cc (by omega)
        have hskip1 : (skipDelims data data.length (pre.length + 1) cc).1
            = pre.length + 1 + mid.length := by
          rw [show pre.length + 1 = (pre ++ [h]).length by simp]
          rw [hskip]
        have hskip2 : (skipDelims data data.length (pre.length + 1) cc).2
            = cc + mid.length := by
          rw [show pre.length + 1 = (pre ++ [h]).length by simp]
          rw [hskip]
        rw [hskip1, hskip2]
        have hshape2 : data = (pre ++ [h] ++ mid) ++ l :: (sep ++ renderAll rest) := by
          rw [hshape] <;> simp
        have hgetl : data[pre.length + 1 + mid.length]? = some l := by
          have h0 := get_at_len (pre ++ [h] ++ mid) l (sep ++ renderAll rest)
          rw [← hshape2] at h0
          rw [show pre.length + 1 + mid.length = (pre ++ [h] ++ mid).length from by
            simp only [List.length_append, List.length_cons, List.length_nil] <;> omega]
          exact h0
        have hnotx : ¬ (l = 120 ∨ l = 88) := to_ordinal_not_x hl
        have hcont : count_skipped_loop data g (pre.length + 1 + mid.length + 1)
            (cc + mid.length) = some (cc + skipOf ((HexItem.pair h mid l, sep) :: rest)) := by
          have hdata3 : data = (pre ++ [h] ++ mid ++ [l]) ++ sep ++ renderAll rest := by
            rw [hshape] <;> simp
          have hstep2 : count_skipped_loop data g (pre.length + 1 + mid.length + 1)
              (cc + mid.length)
              = count_skipped_loop data (g - sep.length)
                  (pre.length + 1 + mid.length + 1 + sep.length)
                  (cc + mid.length + sep.length) := by
            rw [show pre.length + 1 + mid.length + 1 = (pre ++ [h] ++ mid ++ [l]).length from by
              simp only [List.length_append, List.length_cons, List.length_nil] <;> omega]
            exact csl_delims data sep hsep (pre ++ [h] ++ mid ++ [l]) (renderAll rest)
              (cc + mid.length) g hdata3 (by omega)
          rw [hstep2]
          have hdata4 : data = (pre ++ [h] ++ mid ++ [l] ++ sep) ++ renderAll rest := by
            rw [hshape] <;> simp
          have hrec2 : count_skipped_loop data (g - sep.length)
              (pre.length + 1 + mid.length + 1 + sep.length)
              (cc + mid.length + sep.length)
              = some (cc + mid.length + sep.length + skipOf rest) := by
            rw [show pre.length + 1 + mid.length + 1 + sep.length
                = (pre ++ [h] ++ mid ++ [l] ++ sep).length from by
              simp only [List.length_append, List.length_cons, List.length_nil] <;> omega]
            exact ih hrestwf (pre ++ [h] ++ mid ++ [l] ++ sep)
              (cc + mid.length + sep.length) (g - sep.length) hdata4 (by
                simp only [List.length_append, List.length_cons, List.length_nil] <;> omega)
          rw [hrec2]
          simp only [skipOf, HexItem.skipCount]
          congr 1
          omega
        by_cases h48 : h = 48
        · rw [if_pos h48, hgetl]
          simp only [if_neg hnotx]
          exact hcont
        · rw [if_neg h48]
          exact hcont
    | pfx mid x =>
      obtain ⟨hx, hmid⟩ := hitwf
      have hshape : data = (pre ++ [48]) ++ mid ++ x :: (sep ++ renderAll rest) := by
        rw [hdata, renderAll, HexItem.render]
        simp
      have hlendata : data.length
          = pre.length + mid.length + 2 + (sep.length + (renderAll rest).length) := by
        rw [hshape]
        simp only [List.length_append, List.length_cons, List.length_nil,
          Nat.zero_add, Nat.add_zero]
        omega
      cases fuel with
      | zero => omega
      | succ g =>
        have hgeth : data[pre.length]? = some 48 := by
          rw [show data = pre ++ 48 :: (mid ++ x :: (sep ++ renderAll rest)) by
            rw [hshape] <;> simp]
          exact get_at_len pre 48 (mid ++ x :: (sep ++ renderAll rest))
        have hcond : pre.length + 1 < data.length ∧ ¬ is_valid_delimiter 48 = true := by
          constructor
          · omega
          · simp [zero_byte_not_delim]
        rw [count_skipped_loop, hgeth]
        simp only [if_pos hcond]
        have hskip := skipDelims_run data (pre ++ [48]) mid (sep ++ renderAll rest) x
          hshape hmid (x_not_delim hx) data.length cc (by omega)
        have hskip1 : (skipDelims data data.length (pre.length + 1) cc).1
            = pre.length + 1 + mid.length := by
          rw [show pre.length + 1 = (pre ++ [48]).length by simp]
          rw [hskip]
        have hskip2 : (skipDelims data data.length (pre.length + 1) cc).2
            = cc + mid.length := by
          rw [show pre.length + 1 = (pre ++ [48]).length by simp]
          rw [hskip]
        rw [hskip1, hskip2]
        have hshape2 : data = (pre ++ [48] ++ mid) ++ x :: (sep ++ renderAll rest) := by
          rw [hshape] <;> simp
        have hgetx : data[pre.length + 1 + mid.length]? = some x := by
          have h0 := get_at_len (pre ++ [48] ++ mid) x (sep ++ renderAll rest)
          rw [← hshape2] at h0
          rw [show pre.length + 1 + mid.length = (pre ++ [48] ++ mid).length from by
            simp only [List.length_append, List.length_cons, List.length_nil] <;> omega]
          exact h0
        rw [if_pos trivial, hgetx]
        simp only [if_pos hx]
        have hdata3 : data = (pre ++ [48] ++ mid ++ [x]) ++ sep ++ renderAll rest := by
          rw [hshape] <;> simp
        have hstep2 : count_skipped_loop data g (pre.length + 1 + mid.length + 1)
            (cc + mid.length + 2)
            = count_skipped_loop data (g - sep.length)
                (pre.length + 1 + mid.length + 1 + sep.length)
                (cc + mid.length + 2 + sep.length) := by
          rw [show pre.length + 1 + mid.length + 1 = (pre ++ [48] ++ mid ++ [x]).length from by
            simp only [List.length_append, List.length_cons, List.length_nil] <;> omega]
          exact csl_delims data sep hsep (pre ++ [48] ++ mid ++ [x]) (renderAll rest)
            (cc + mid.length + 2) g hdata3 (by omega)
        rw [hstep2]
        have hdata4 : data = (pre ++ [48] ++ mid ++ [x] ++ sep) ++ renderAll rest := by
          rw [hshape] <;> simp
        have hrec2 : count_skipped_loop data (g - sep.length)
            (pre.length + 1 + mid.length + 1 + sep.length)
            (cc + mid.length + 2 + sep.length)
            = some (cc + mid.length + 2 + sep.length + skipOf rest) := by
          rw [show pre.length + 1 + mid.length + 1 + sep.length
              = (pre ++ [48] ++ mid ++ [x] ++ sep).length from by
            simp only [List.length_append, List.length_cons, List.length_nil] <;> omega]
          exact ih hrestwf (pre ++ [48] ++ mid ++ [x] ++ sep)
            (cc + mid.length + 2 + sep.length) (g - sep.length) hdata4 (by
              simp only [List.length_append, List.length_cons, List.length_nil]
              omega)
        rw [hrec2]
        simp only [skipOf, HexItem.skipCount]
        congr 1
        omega


/-- The preprocessor on a full structured input: leading separator run, then
items.  The skip count is the number of separator bytes plus two per prefix
marker. -/
theorem count_skipped_render (lead : List Nat) (items : List (HexItem × List Nat))
    (hlead : DelimRun lead) (hwf : ItemsWF items) :
    count_skipped (lead ++ renderAll items) = some (lead.length + skipOf items) := by
  unfold count_skipped
  have hdata : lead ++ renderAll items = ([] : List Nat) ++ lead ++ renderAll items := by
    simp
  have hlen : lead.length ≤ (lead ++ renderAll items).length := by simp
  have hstep := csl_delims (lead ++ renderAll items) lead hlead [] (renderAll items)
    0 (lead ++ renderAll items).length hdata hlen
  simp only [List.length_nil, Nat.zero_add] at hstep
  rw [hstep]
  have hrec := csl_items (lead ++ renderAll items) items hwf lead (lead.length)
    ((lead ++ renderAll items).length - lead.length) (by simp) (by omega)
  exact hrec

/-! ### The decoder on structured inputs -/

/-- Sequential writes into the output array, as `convert_loop` performs
them. -/
def writeSeq : List Nat → Nat → List Nat → List Nat
  | data, _, [] => data
  | data, i, b :: bs => writeSeq (data.set i b) (i + 1) bs

/-- Taking one past an updated index splits off the written element. -/
theorem set_take_succ :
    ∀ (data : List Nat) (i b : Nat), i < data.length →
      (data.set i b).take (i + 1) = data.take i ++ [b] := by
  intro data
  induction data with
  | nil => intro i b h; simp at h
  | cons d ds ih =>
    intro i b h
    cases i with
    | zero => simp
    | succ j =>
      simp only [List.set_cons_succ, List.take_succ_cons]
      rw [ih j b (by simpa using h)]
      simp

/-- A `writeSeq` that exactly fills the suffix of the array replaces it. -/
theorem writeSeq_exact :
    ∀ (bs data : List Nat) (i : Nat), data.length = i + bs.length →
      writeSeq data i bs = data.take i ++ bs := by
  intro bs
  induction bs with
  | nil =>
    intro data i h
    rw [writeSeq]
    rw [show i = data.length by simpa using h.symm]
    simp
  | cons b bs ih =>
    intro data i h
    rw [writeSeq]
    rw [ih (data.set i b) (i + 1) (by simp only [List.length_set]; simp at h; omega)]
    rw [set_take_succ data i b (by simp at h; omega)]
    simp

/-- Filling a zero-initialized array of the right length yields the bytes. -/
theorem writeSeq_replicate (bs : List Nat) :
    writeSeq (List.replicate bs.length 0) 0 bs = bs := by
  have h := writeSeq_exact bs (List.replicate bs.length 0) 0 (by simp)
  simpa using h

/-- When the loop condition fails, `convert_loop` returns the array for any
fuel. -/
theorem convert_loop_exit (S : Nat) (input : List Nat) (fuel : Nat)
    (data : List Nat) (di ci : Nat) (hcond : ¬ (di < S ∧ ci + 1 < S)) :
    convert_loop S input fuel data di ci = some data := by
  cases fuel with
  | zero => rw [convert_loop, if_neg hcond]
  | succ g => rw [convert_loop, if_neg hcond]

/-- Congruence in the fuel and cursor arguments. -/
theorem cvl_congr (S : Nat) (input : List Nat) {f₁ f₂ : Nat} {data : List Nat}
    {di ci₁ ci₂ : Nat} (hf : f₁ = f₂) (hci : ci₁ = ci₂) :
    convert_loop S input f₁ data di ci₁ = convert_loop S input f₂ data di ci₂ := by
  rw [hf, hci]

/-- A trailing separator run is consumed (or the loop exits early on it) with
no effect on the output array. -/
theorem cvl_trailing (S : Nat) (input : List Nat) :
    ∀ sep, DelimRun sep → ∀ pre data di fuel,
      input = pre ++ sep → S = input.length → sep.length ≤ fuel →
      convert_loop S input fuel data di pre.length = some data := by
  intro sep
  induction sep with
  | nil =>
    intro _ pre data di fuel hin hS _
    apply convert_loop_exit
    intro hcon
    rw [hS, hin] at hcon
    simp at hcon <;> omega
  | cons s sep ih =>
    intro hsep pre data di fuel hin hS hfuel
    cases fuel with
    | zero => simp at hfuel
    | succ g =>
      by_cases hcond : di < S ∧ pre.length + 1 < S
      · rw [convert_loop, if_pos hcond]
        have hget : input[pre.length]? = some s := by
          rw [hin, show pre ++ s :: sep = pre ++ s :: sep from rfl]
          exact get_at_len pre s sep
        simp only [hget]
        have hs : is_valid_delimiter s = true := hsep s (by simp)
        have hnd : ¬ (¬ is_valid_delimiter s = true) := by simp [hs]
        rw [if_neg hnd]
        have hin2 : input = (pre ++ [s]) ++ sep := by simp [hin]
        have hml := ih (fun d hd => hsep d (by simp [hd])) (pre ++ [s]) data di g
          hin2 hS (by simp only [List.length_cons] at hfuel; omega)
        rw [show pre.length + 1 = (pre ++ [s]).length by simp]
        exact hml
      · exact convert_loop_exit S input (g + 1) data di pre.length hcond

/-- Stepping `convert_loop` over a separator run between items: each
separator costs one unit of fuel, nothing is written.  When the run is the
very end of the input the loop exits early on it, with the same result. -/
theorem cvl_seps (S : Nat) (input : List Nat) :
    ∀ sep, DelimRun sep → ∀ pre tail data di fuel,
      input = pre ++ sep ++ tail → S = input.length → sep.length ≤ fuel →
      (tail = [] ∨ (di < S ∧ pre.length + sep.length + 1 < S)) →
      convert_loop S input fuel data di pre.length
        = convert_loop S input (fuel - sep.length) data di
            (pre.length + sep.length) := by
  intro sep
  induction sep with
  | nil =>
    intro _ pre tail data di fuel hin hS hfuel hside
    simp
  | cons s sep ih =>
    intro hsep pre tail data di fuel hin hS hfuel hside
    cases fuel with
    | zero => simp at hfuel
    | succ g =>
      rcases hside with htail | ⟨hdi, hlen⟩
      · subst htail
        have hin2 : input = pre ++ (s :: sep) := by simpa using hin
        rw [cvl_trailing S input (s :: sep) hsep pre data di (g + 1) hin2 hS
          (by omega)]
        have hS2 : S = pre.length + (s :: sep).length := by
          rw [hS, hin2]; simp
        rw [convert_loop_exit S input (g + 1 - (s :: sep).length) data di
          (pre.length + (s :: sep).length) (by omega)]
      · have hlt1 : pre.length + 1 < S := by
          simp only [List.length_cons] at hlen
          omega
        rw [convert_loop, if_pos ⟨hdi, hlt1⟩]
        have hget : input[pre.length]? = some s := by
          rw [hin, show pre ++ (s :: sep) ++ tail = pre ++ s :: (sep ++ tail) by simp]
          exact get_at_len pre s (sep ++ tail)
        simp only [hget]
        have hs : is_valid_delimiter s = true := hsep s (by simp)
        have hnd : ¬ (¬ is_valid_delimiter s = true) := by simp [hs]
        rw [if_neg hnd]
        have hin2 : input = (pre ++ [s]) ++ sep ++ tail := by simp [hin]
        have hml := ih (fun d hd => hsep d (by simp [hd])) (pre ++ [s]) tail data
          di g hin2 hS (by simp only [List.length_cons] at hfuel; omega)
          (Or.inr ⟨hdi, by
            simp only [List.length_append, List.length_cons, List.length_nil]
            simp only [List.length_cons] at hlen
            omega⟩)
        rw [show pre.length + 1 = (pre ++ [s]).length by simp]
        rw [hml]
        exact cvl_congr S input
          (by simp only [List.length_cons] <;> omega)
          (by simp only [List.length_append, List.length_cons, List.length_nil] <;> omega)

/-- Any nonempty item sequence renders at least two bytes. -/
theorem renderAll_cons_ge (q : HexItem × List Nat)
    (rest : List (HexItem × List Nat)) :
    2 ≤ (renderAll (q :: rest)).length := by
  obtain ⟨it, sep⟩ := q
  cases it <;> simp [renderAll, HexItem.render] <;> omega

/-- Length accounting: rendered length is skipped bytes plus two per decoded
byte. -/
theorem renderAll_length :
    ∀ items : List (HexItem × List Nat),
      (renderAll items).length = skipOf items + 2 * (bytesOf items).length := by
  intro items
  induction items with
  | nil => simp [renderAll, skipOf, bytesOf]
  | cons q rest ih =>
    obtain ⟨it, sep⟩ := q
    cases it <;>
      simp [renderAll, HexItem.render, skipOf, bytesOf, HexItem.byteOf,
        HexItem.skipCount, ih] <;>
      omega

/-- Core run of the decoder: starting at a well-formed item sequence with
enough room left in the output array, `convert_loop` writes exactly the
decoded bytes of the pairs, skipping separators and prefix markers. -/
theorem cvl_items (S : Nat) (input : List Nat) :
    ∀ items, ItemsWF items → ∀ pre data di fuel,
      input = pre ++ renderAll items → S = input.length →
      di + (bytesOf items).length ≤ data.length → data.length < S →
      S - pre.length ≤ fuel →
      convert_loop S input fuel data di pre.length
        = some (writeSeq data di (bytesOf items)) := by
  intro items
  induction items with
  | nil =>
    intro _ pre data di fuel hin hS hdi hdata hfuel
    rw [convert_loop_exit S input fuel data di pre.length (by
      intro hcon
      rw [hS, hin, renderAll] at hcon
      simp at hcon <;> omega)]
    simp [bytesOf, writeSeq]
  | cons q rest ih =>
    intro hwf pre data di fuel hin hS hdi hdata hfuel
    obtain ⟨it, sep⟩ := q
    have hitwf : it.WF := (hwf (it, sep) (by simp)).1
    have hsep : DelimRun sep := (hwf (it, sep) (by simp)).2
    have hrestwf : ItemsWF rest := fun q hq => hwf q (by simp [hq])
    cases it with
    | pair h mid l =>
      obtain ⟨hh, hl, hmid⟩ := hitwf
      obtain ⟨hv, hhv⟩ := Option.isSome_iff_exists.mp hh
      obtain ⟨lv, hlv⟩ := Option.isSome_iff_exists.mp hl
      have hshape : input = (pre ++ [h]) ++ mid ++ l :: (sep ++ renderAll rest) := by
        rw [hin, renderAll, HexItem.render] <;> simp
      have hlendata : S
          = pre.length + mid.length + 2 + (sep.length + (renderAll rest).length) := by
        rw [hS, hshape]
        simp only [List.length_append, List.length_cons, List.length_nil,
          Nat.zero_add, Nat.add_zero] <;> omega
      have hbytes : bytesOf ((HexItem.pair h mid l, sep) :: rest)
          = (hv * 16 + lv) :: bytesOf rest := by
        simp [bytesOf, HexItem.byteOf, hhv, hlv]
      rw [hbytes] at hdi ⊢
      simp only [List.length_cons] at hdi
      cases fuel with
      | zero => omega
      | succ g =>
        have hdiw : di < data.length := by omega
        have hcond : di < S ∧ pre.length + 1 < S := by
          constructor <;> omega
        rw [convert_loop, if_pos hcond]
        have hget : input[pre.length]? = some h := by
          rw [show input = pre ++ h :: (mid ++ l :: (sep ++ renderAll rest)) from by
            rw [hshape] <;> simp]
          exact get_at_len pre h _
        simp only [hget]
        have hnd : ¬ is_valid_delimiter h = true := by
          simp [to_ordinal_not_delim hh]
        rw [if_pos hnd]
        have hfn : find_next S input S (pre.length + 1)
            = some (pre.length + 1 + mid.length) := by
          rw [show pre.length + 1 = (pre ++ [h]).length by simp]
          rw [find_next_run S input (pre ++ [h]) mid (sep ++ renderAll rest) l
            hshape hS hmid (to_ordinal_not_delim hl) S (by omega)]
        simp only [hfn]
        have hshape2 : input = (pre ++ [h] ++ mid) ++ l :: (sep ++ renderAll rest) := by
          rw [hshape] <;> simp
        have hgetl : input[pre.length + 1 + mid.length]? = some l := by
          have h0 := get_at_len (pre ++ [h] ++ mid) l (sep ++ renderAll rest)
          rw [← hshape2] at h0
          rw [show pre.length + 1 + mid.length = (pre ++ [h] ++ mid).length from by
            simp only [List.length_append, List.length_cons, List.length_nil] <;> omega]
          exact h0
        have hnotx : ¬ (l = 120 ∨ l = 88) := to_ordinal_not_x hl
        have hcont : convert_loop S input g (data.set di (hv * 16 + lv)) (di + 1)
            (pre.length + 1 + mid.length + 1)
            = some (writeSeq data di ((hv * 16 + lv) :: bytesOf rest)) := by
          have hin3 : input = (pre ++ [h] ++ mid ++ [l]) ++ sep ++ renderAll rest := by
            rw [hshape] <;> simp
          have hside : renderAll rest = []
              ∨ (di + 1 < S ∧ (pre ++ [h] ++ mid ++ [l]).length + sep.length + 1 < S) := by
            cases rest with
            | nil => exact Or.inl rfl
            | cons q2 rest2 =>
              right
              have hge2 := renderAll_cons_ge q2 rest2
              constructor
              · omega
              · simp only [List.length_append, List.length_cons, List.length_nil] <;> omega
          have hseps := cvl_seps S input sep hsep (pre ++ [h] ++ mid ++ [l])
            (renderAll rest) (data.set di (hv * 16 + lv)) (di + 1) g hin3 hS
            (by omega) hside
          rw [show pre.length + 1 + mid.length + 1
              = (pre ++ [h] ++ mid ++ [l]).length from by
            simp only [List.length_append, List.length_cons, List.length_nil] <;> omega]
          rw [hseps]
          have hin4 : input = (pre ++ [h] ++ mid ++ [l] ++ sep) ++ renderAll rest := by
            rw [hshape] <;> simp
          have hml := ih hrestwf (pre ++ [h] ++ mid ++ [l] ++ sep)
            (data.set di (hv * 16 + lv)) (di + 1) (g - sep.length) hin4 hS
            (by simp only [List.length_set] <;> omega)
            (by simp only [List.length_set] <;> omega)
            (by simp only [List.length_append, List.length_cons, List.length_nil] <;> omega)
          rw [show (pre ++ [h] ++ mid ++ [l]).length + sep.length
              = (pre ++ [h] ++ mid ++ [l] ++ sep).length from by
            simp only [List.length_append, List.length_cons, List.length_nil] <;> omega]
          rw [hml]
          rw [writeSeq]
        by_cases h48 : h = 48
        · rw [if_pos h48]
          simp only [hgetl]
          rw [if_neg hnotx]
          simp only [hhv, hlv]
          rw [if_pos hdiw]
          exact hcont
        · rw [if_neg h48]
          simp only [hhv]
          simp only [hgetl]
          simp only [hlv]
          rw [if_pos hdiw]
          exact hcont
    | pfx mid x =>
      obtain ⟨hx, hmid⟩ := hitwf
      have hshape : input = (pre ++ [48]) ++ mid ++ x :: (sep ++ renderAll rest) := by
        rw [hin, renderAll, HexItem.render] <;> simp
      have hlendata : S
          = pre.length + mid.length + 2 + (sep.length + (renderAll rest).length) := by
        rw [hS, hshape]
        simp only [List.length_append, List.length_cons, List.length_nil,
          Nat.zero_add, Nat.add_zero] <;> omega
      have hbytes : bytesOf ((HexItem.pfx mid x, sep) :: rest) = bytesOf rest := by
        simp [bytesOf, HexItem.byteOf]
      rw [hbytes] at hdi ⊢
      cases fuel with
      | zero => omega
      | succ g =>
        have hcond : di < S ∧ pre.length + 1 < S := by
          constructor <;> omega
        rw [convert_loop, if_pos hcond]
        have hget : input[pre.length]? = some 48 := by
          rw [show input = pre ++ 48 :: (mid ++ x :: (sep ++ renderAll rest)) from by
            rw [hshape] <;> simp]
          exact get_at_len pre 48 _
        simp only [hget]
        have hnd : ¬ is_valid_delimiter 48 = true := by
          simp [zero_byte_not_delim]
        rw [if_pos hnd]
        have hfn : find_next S input S (pre.length + 1)
            = some (pre.length + 1 + mid.length) := by
          rw [show pre.length + 1 = (pre ++ [48]).length by simp]
          rw [find_next_run S input (pre ++ [48]) mid (sep ++ renderAll rest) x
            hshape hS hmid (x_not_delim hx) S (by omega)]
        simp only [hfn]
        have hshape2 : input = (pre ++ [48] ++ mid) ++ x :: (sep ++ renderAll rest) := by
          rw [hshape] <;> simp
        have hgetx : input[pre.length + 1 + mid.length]? = some x := by
          have h0 := get_at_len (pre ++ [48] ++ mid) x (sep ++ renderAll rest)
          rw [← hshape2] at h0
          rw [show pre.length + 1 + mid.length = (pre ++ [48] ++ mid).length from by
            simp only [List.length_append, List.length_cons, List.length_nil] <;> omega]
          exact h0
        rw [if_pos trivial]
        simp only [hgetx]
        rw [if_pos hx]
        have hin3 : input = (pre ++ [48] ++ mid ++ [x]) ++ sep ++ renderAll rest := by
          rw [hshape] <;> simp
        have hside : renderAll rest = []
            ∨ (di < S ∧ (pre ++ [48] ++ mid ++ [x]).length + sep.length + 1 < S) := by
          cases rest with
          | nil => exact Or.inl rfl
          | cons q2 rest2 =>
            right
            have hge2 := renderAll_cons_ge q2 rest2
            constructor
            · omega
            · simp only [List.length_append, List.length_cons, List.length_nil] <;> omega
        have hseps := cvl_seps S input sep hsep (pre ++ [48] ++ mid ++ [x])
          (renderAll rest) data di g hin3 hS (by omega) hside
        rw [show pre.length + 1 + mid.length + 1
            = (pre ++ [48] ++ mid ++ [x]).length from by
          simp only [List.length_append, List.length_cons, List.length_nil] <;> omega]
        rw [hseps]
        have hin4 : input = (pre ++ [48] ++ mid ++ [x] ++ sep) ++ renderAll rest := by
          rw [hshape] <;> simp
        have hml := ih hrestwf (pre ++ [48] ++ mid ++ [x] ++ sep) data di
          (g - sep.length) hin4 hS (by omega) hdata
          (by simp only [List.length_append, List.length_cons, List.length_nil] <;> omega)
        have heq : (pre ++ [48] ++ mid ++ [x]).length + sep.length
            = (pre ++ [48] ++ mid ++ [x] ++ sep).length := by
          simp only [List.length_append, List.length_cons, List.length_nil] <;> omega
        rw [heq]
        exact hml

/-- The full pipeline on a structured input: a leading separator run followed
by well-formed items decodes to exactly the bytes of its digit pairs. -/
theorem decode_hex_render (lead : List Nat) (items : List (HexItem × List Nat))
    (hlead : DelimRun lead) (hwf : ItemsWF items) :
    decode_hex (lead ++ renderAll items) = some (bytesOf items) := by
  have hcount := count_skipped_render lead items hlead hwf
  rw [decode_hex]
  simp only [hcount]
  have hrl := renderAll_length items
  have hlen : (lead ++ renderAll items).length
      = lead.length + (skipOf items + 2 * (bytesOf items).length) := by
    simp only [List.length_append] <;> omega
  rw [if_pos (by omega)]
  rw [if_pos (by omega)]
  rw [show ((lead ++ renderAll items).length - (lead.length + skipOf items)) / 2
      = (bytesOf items).length by omega]
  rw [convert]
  cases items with
  | nil =>
    exact cvl_trailing (lead ++ renderAll []).length (lead ++ renderAll [])
      lead hlead [] (List.replicate (bytesOf []).length 0) 0
      (lead ++ renderAll []).length (by simp [renderAll]) rfl (by simp)
  | cons q rest =>
    have hS2 := renderAll_cons_ge q rest
    have hSlen : (lead ++ renderAll (q :: rest)).length
        = lead.length + (renderAll (q :: rest)).length := by
      simp only [List.length_append]
    have hstep := cvl_seps (lead ++ renderAll (q :: rest)).length
      (lead ++ renderAll (q :: rest)) lead hlead [] (renderAll (q :: rest))
      (List.replicate (bytesOf (q :: rest)).length 0) 0
      (lead ++ renderAll (q :: rest)).length (by simp) rfl (by omega)
      (Or.inr ⟨by omega, by
        simp only [List.length_nil, Nat.zero_add] <;> omega⟩)
    simp only [List.length_nil, Nat.zero_add] at hstep
    rw [hstep]
    have hml := cvl_items (lead ++ renderAll (q :: rest)).length
      (lead ++ renderAll (q :: rest)) (q :: rest) hwf lead
      (List.replicate (bytesOf (q :: rest)).length 0) 0
      ((lead ++ renderAll (q :: rest)).length - lead.length) rfl rfl
      (by simp) (by simp only [List.length_replicate]; omega) (by omega)
    rw [hml]
    rw [writeSeq_replicate]

/-! ### Arrangements of digit pairs (for separator-invariance) -/

/-- An arrangement: digit pairs, each followed by its own separator run. -/
def pairItems (a : List ((Nat × Nat) × List Nat)) : List (HexItem × List Nat) :=
  a.map fun q => (HexItem.pair q.1.1 [] q.1.2, q.2)

/-- Well-formedness of an arrangement: all digits convert, all runs are
separators. -/
def PairsWF (a : List ((Nat × Nat) × List Nat)) : Prop :=
  ∀ q ∈ a, (to_ordinal q.1.1).isSome = true ∧ (to_ordinal q.1.2).isSome = true
    ∧ DelimRun q.2

instance : DecidablePred PairsWF := fun a =>
  List.decidableBAll
    (fun q : (Nat × Nat) × List Nat =>
      (to_ordinal q.1.1).isSome = true ∧ (to_ordinal q.1.2).isSome = true
        ∧ DelimRun q.2) a

/-- A well-formed arrangement is a well-formed item sequence. -/
theorem pairItems_wf {a : List ((Nat × Nat) × List Nat)} (h : PairsWF a) :
    ItemsWF (pairItems a) := by
  intro p hp
  simp only [pairItems, List.mem_map] at hp
  obtain ⟨q, hq, rfl⟩ := hp
  obtain ⟨h1, h2, h3⟩ := h q hq
  exact ⟨⟨h1, h2, fun c hc => nomatch hc⟩, h3⟩

/-- The decoded bytes of an arrangement depend only on its digit pairs. -/
theorem bytesOf_pairItems :
    ∀ a : List ((Nat × Nat) × List Nat),
      bytesOf (pairItems a)
        = a.map (fun q => (to_ordinal q.1.1).getD 0 * 16 + (to_ordinal q.1.2).getD 0) := by
  intro a
  induction a with
  | nil => rfl
  | cons q a ih =>
    simp only [pairItems, List.map_cons, bytesOf, HexItem.byteOf]
    rw [← pairItems]
    rw [ih]

/-! ### Hex encoders (for the round-trip property) -/

/-- Lowercase hex digit of a nibble. -/
def encode_digit_lower (n : Nat) : Nat := if n < 10 then 48 + n else 87 + n

/-- Uppercase hex digit of a nibble. -/
def encode_digit_upper (n : Nat) : Nat := if n < 10 then 48 + n else 55 + n

/-- Two-digit-per-byte lowercase hex text, no separators. -/
def encode_hex_lower : List Nat → List Nat
  | [] => []
  | b :: bs =>
    encode_digit_lower (b / 16) :: encode_digit_lower (b % 16) :: encode_hex_lower bs

/-- Two-digit-per-byte uppercase hex text, no separators. -/
def encode_hex_upper : List Nat → List Nat
  | [] => []
  | b :: bs =>
    encode_digit_upper (b / 16) :: encode_digit_upper (b % 16) :: encode_hex_upper bs

/-- The decoder's digit conversion inverts the lowercase encoder. -/
theorem to_ordinal_encode_lower {n : Nat} (h : n < 16) :
    to_ordinal (encode_digit_lower n) = some n := by
  simp only [encode_digit_lower, to_ordinal]
  split_ifs <;> first
  | (simp only [Option.some.injEq]; omega)
  | (exfalso; omega)

/-- The decoder's digit conversion inverts the uppercase encoder. -/
theorem to_ordinal_encode_upper {n : Nat} (h : n < 16) :
    to_ordinal (encode_digit_upper n) = some n := by
  simp only [encode_digit_upper, to_ordinal]
  split_ifs <;> first
  | (simp only [Option.some.injEq]; omega)
  | (exfalso; omega)

/-- Encoded text as a structured item sequence. -/
def encodeItems (e : Nat → Nat) (bs : List Nat) : List (HexItem × List Nat) :=
  bs.map fun b => (HexItem.pair (e (b / 16)) [] (e (b % 16)), [])

/-- The lowercase encoder renders the corresponding item sequence. -/
theorem encode_lower_render :
    ∀ bs, encode_hex_lower bs = renderAll (encodeItems encode_digit_lower bs) := by
  intro bs
  induction bs with
  | nil => rfl
  | cons b bs ih =>
    simp only [encode_hex_lower, encodeItems, List.map_cons, renderAll,
      HexItem.render]
    rw [← encodeItems, ← ih]
    simp

/-- The uppercase encoder renders the corresponding item sequence. -/
theorem encode_upper_render :
    ∀ bs, encode_hex_upper bs = renderAll (encodeItems encode_digit_upper bs) := by
  intro bs
  induction bs with
  | nil => rfl
  | cons b bs ih =>
    simp only [encode_hex_upper, encodeItems, List.map_cons, renderAll,
      HexItem.render]
    rw [← encodeItems, ← ih]
    simp

/-- Well-formedness of encoded items, given byte bounds. -/
theorem encodeItems_wf {e : Nat → Nat}
    (he : ∀ n, n < 16 → to_ordinal (e n) = some n)
    {bs : List Nat} (h : ∀ b ∈ bs, b < 256) :
    ItemsWF (encodeItems e bs) := by
  intro p hp
  simp only [encodeItems, List.mem_map] at hp
  obtain ⟨b, hb, rfl⟩ := hp
  have hblt := h b hb
  refine ⟨⟨?_, ?_, fun c hc => nomatch hc⟩, fun c hc => nomatch hc⟩
  · rw [he (b / 16) (by omega)]; rfl
  · rw [he (b % 16) (by omega)]; rfl

/-- Decoded bytes of encoded items are the original bytes. -/
theorem bytesOf_encodeItems {e : Nat → Nat}
    (he : ∀ n, n < 16 → to_ordinal (e n) = some n) :
    ∀ bs : List Nat, (∀ b ∈ bs, b < 256) → bytesOf (encodeItems e bs) = bs := by
  intro bs
  induction bs with
  | nil => intro _; rfl
  | cons b bs ih =>
    intro h
    have hblt := h b (by simp)
    simp only [encodeItems, List.map_cons, bytesOf, HexItem.byteOf]
    rw [← encodeItems]
    rw [he (b / 16) (by omega), he (b % 16) (by omega)]
    simp only [Option.getD_some]
    rw [ih (fun x hx => h x (by simp [hx]))]
    congr 1
    omega

/-! ### Separator counting (skip count versus separator occurrences) -/

/-- Skipped bytes split into separator bytes and two per prefix marker. -/
theorem skipOf_sep_pfx :
    ∀ items : List (HexItem × List Nat),
      skipOf items = sepOf items + 2 * pfxCount items := by
  intro items
  induction items with
  | nil => rfl
  | cons q rest ih =>
    obtain ⟨it, sep⟩ := q
    cases it <;>
      simp [skipOf, sepOf, pfxCount, HexItem.skipCount, ih] <;> omega

/-- On a separator run, the separator count is the length. -/
theorem countP_delim_run {s : List Nat} (h : DelimRun s) :
    s.countP (fun c => is_valid_delimiter c) = s.length := by
  rw [List.countP_eq_length]
  intro a ha
  exact h a ha

/-- Separator occurrences in a rendered item sequence are exactly the inner
and trailing runs: digits, the `0` and the `x`/`X` of markers are never
separators. -/
theorem countP_render :
    ∀ items, ItemsWF items →
      (renderAll items).countP (fun c => is_valid_delimiter c) = sepOf items := by
  intro items
  induction items with
  | nil => intro _; rfl
  | cons q rest ih =>
    intro hwf
    obtain ⟨it, sep⟩ := q
    have hsep : DelimRun sep := (hwf (it, sep) (by simp)).2
    have hrestwf : ItemsWF rest := fun p hp => hwf p (by simp [hp])
    cases it with
    | pair h mid l =>
      obtain ⟨hh, hl, hmid⟩ := (hwf (HexItem.pair h mid l, sep) (by simp)).1
      simp [renderAll, HexItem.render, List.countP_append, List.countP_cons,
        countP_delim_run hsep, countP_delim_run hmid, ih hrestwf,
        to_ordinal_not_delim hh, to_ordinal_not_delim hl, sepOf] <;> omega
    | pfx mid x =>
      obtain ⟨hx, hmid⟩ := (hwf (HexItem.pfx mid x, sep) (by simp)).1
      simp [renderAll, HexItem.render, List.countP_append, List.countP_cons,
        countP_delim_run hsep, countP_delim_run hmid, ih hrestwf,
        zero_byte_not_delim, x_not_delim hx, sepOf] <;> omega

/-! ### The claims -/

/-- C1: the spec requires `decode_hex("abc")` — odd significant-digit count —
to fail via the static parity guard before producing any output, never
silently returning a truncated byte sequence.  The code does the opposite:
`count_skipped` counts the lone trailing byte `c` as skipped (its final
`else` branch fires whenever only one byte remains), so the significant
count is 2, the parity guard passes, and the decode silently returns the
truncated `[0xAB]`. -/
theorem claim_C1_abc_not_rejected :
    strBytes "abc" = [97, 98, 99] ∧
    count_skipped (strBytes "abc") = some 1 ∧
    decode_hex (strBytes "abc") = some [0xAB] := by decide

/-- C2: the spec says `count_skipped` is total over every byte sequence, all
its reads in bounds.  On the input `"0 "` the inner delimiter loop runs to
the end of the slice, `next_index` equals the length, and the prefix test
`data[char_index] == b'0' && (data[next_index] == b'x' || ...)` reads
`data[2]` out of bounds — a const-evaluation panic, modelled as `none`. -/
theorem claim_C2_not_total :
    strBytes "0 " = [48, 32] ∧
    count_skipped (strBytes "0 ") = none ∧
    decode_hex (strBytes "0 ") = none := by decide

/-- C3 counterexample: for the all-digit input `"abc"` the skip count is 1,
yet the input has no separator byte and none of the bytes `0`, `x`, `X`, so
no recognized marker — the claimed equation `skip = separators + marker
bytes` fails. -/
theorem claim_C3_counterexample :
    count_skipped [97, 98, 99] = some 1 ∧
    List.countP (fun c => is_valid_delimiter c) [97, 98, 99] = 0 ∧
    (∀ c ∈ [97, 98, 99], c ≠ 48 ∧ c ≠ 120 ∧ c ≠ 88) := by decide

/-- C3 (amended): for every well-formed input — a leading separator run
followed by digit pairs and `0x`/`0X` markers, each with its own separator
runs — the skip count equals the number of separator-byte occurrences plus
two per recognized marker, and the significant count (length minus that sum)
is twice the number of digit pairs.  (On arbitrary byte sequences the claim
fails: a lone trailing byte is also counted as skipped, see the
counterexample.) -/
theorem claim_C3_amended :
    ∀ (lead : List Nat) (items : List (HexItem × List Nat)),
      DelimRun lead → ItemsWF items →
      count_skipped (lead ++ renderAll items)
        = some ((lead ++ renderAll items).countP (fun c => is_valid_delimiter c)
            + 2 * pfxCount items) ∧
      (lead ++ renderAll items).length
          - ((lead ++ renderAll items).countP (fun c => is_valid_delimiter c)
              + 2 * pfxCount items)
        = 2 * (bytesOf items).length := by
  intro lead items hlead hwf
  have hc := count_skipped_render lead items hlead hwf
  have hcp : (lead ++ renderAll items).countP (fun c => is_valid_delimiter c)
      = lead.length + sepOf items := by
    rw [List.countP_append, countP_delim_run hlead, countP_render items hwf]
  have hsp := skipOf_sep_pfx items
  have hrl := renderAll_length items
  constructor
  · rw [hc, hcp]
    congr 1
    omega
  · rw [hcp]
    simp only [List.length_append]
    omega

/-- Witness for the amended C3 at the input `" 0x12 34"`: two separators and
one marker give a skip count of 4. -/
theorem claim_C3_amended_witness :
    count_skipped (strBytes " 0x12 34") = some 4 := by
  have h := (claim_C3_amended [32]
    [(HexItem.pfx [] 120, []), (HexItem.pair 49 [] 50, [32]),
      (HexItem.pair 51 [] 52, [])] (by decide) (by decide)).1
  rw [show (([32] : List Nat) ++ renderAll [(HexItem.pfx [] 120, []),
      (HexItem.pair 49 [] 50, [32]), (HexItem.pair 51 [] 52, [])])
      = strBytes " 0x12 34" from by decide] at h
  rw [show (List.countP (fun c => is_valid_delimiter c) (strBytes " 0x12 34")
      + 2 * pfxCount [(HexItem.pfx [] 120, []), (HexItem.pair 49 [] 50, [32]),
        (HexItem.pair 51 [] 52, [])]) = 4 from by decide] at h
  exact h

/-- C4: the spec requires failure on any out-of-set byte at a digit
position, never yielding `[0]` or skipping the bad character.  `"zz"` does
fail (the digit conversion panics).  But the code violates the general
claim: in `"abz"` the byte `z` is a significant-digit position (it is
neither separator nor marker), yet it is silently skipped by the lone
trailing-byte branch and the decode returns `[0xAB]`. -/
theorem claim_C4_invalid_digit :
    decode_hex (strBytes "zz") = none ∧
    decode_hex (strBytes "abz") = some [0xAB] := by decide

/-- C5: a `0x` marker before the digits is excluded from the digit count (2
skipped bytes) and from decoding; with or without it, `DEADBEEF` decodes to
`[0xDE, 0xAD, 0xBE, 0xEF]`. -/
theorem claim_C5_0x_marker :
    decode_hex (strBytes "0xDEADBEEF") = some [0xDE, 0xAD, 0xBE, 0xEF] ∧
    decode_hex (strBytes "DEADBEEF") = some [0xDE, 0xAD, 0xBE, 0xEF] ∧
    count_skipped (strBytes "0xDEADBEEF") = some 2 ∧
    count_skipped (strBytes "DEADBEEF") = some 0 := by decide

/-- C6: separator-invariance.  Any two arrangements of the same digit pairs
with arbitrary leading separator runs and arbitrary separator runs between
pairs decode identically; in particular the spec's three examples agree. -/
theorem claim_C6_separator_invariance :
    (∀ (lead₁ lead₂ : List Nat) (a₁ a₂ : List ((Nat × Nat) × List Nat)),
      DelimRun lead₁ → DelimRun lead₂ → PairsWF a₁ → PairsWF a₂ →
      a₁.map Prod.fst = a₂.map Prod.fst →
      decode_hex (lead₁ ++ renderAll (pairItems a₁))
        = decode_hex (lead₂ ++ renderAll (pairItems a₂))) ∧
    decode_hex (strBytes "01020304") = some [1, 2, 3, 4] ∧
    decode_hex (strBytes "01 02 03 04") = some [1, 2, 3, 4] ∧
    decode_hex (strBytes "01_02|03-04") = some [1, 2, 3, 4] := by
  refine ⟨?_, by decide, by decide, by decide⟩
  intro lead₁ lead₂ a₁ a₂ hl1 hl2 hp1 hp2 hmap
  rw [decode_hex_render lead₁ (pairItems a₁) hl1 (pairItems_wf hp1),
    decode_hex_render lead₂ (pairItems a₂) hl2 (pairItems_wf hp2)]
  rw [bytesOf_pairItems, bytesOf_pairItems]
  have h1 : ∀ (a : List ((Nat × Nat) × List Nat)),
      a.map (fun q => (to_ordinal q.1.1).getD 0 * 16 + (to_ordinal q.1.2).getD 0)
        = (a.map Prod.fst).map
            (fun q => (to_ordinal q.1).getD 0 * 16 + (to_ordinal q.2).getD 0) := by
    intro a
    rw [List.map_map]
    rfl
  rw [h1 a₁, h1 a₂, hmap]

/-- Witness for C6 at the spec's example pair of arrangements. -/
theorem claim_C6_witness :
    decode_hex (strBytes "01020304") = decode_hex (strBytes "01 02 03 04") := by
  have h := claim_C6_separator_invariance.1 [] []
    [((48, 49), []), ((48, 50), []), ((48, 51), []), ((48, 52), [])]
    [((48, 49), [32]), ((48, 50), [32]), ((48, 51), [32]), ((48, 52), [])]
    (by decide) (by decide) (by decide) (by decide) (by decide)
  rw [show (([] : List Nat) ++ renderAll (pairItems
      [((48, 49), []), ((48, 50), []), ((48, 51), []), ((48, 52), [])]))
      = strBytes "01020304" from by decide] at h
  rw [show (([] : List Nat) ++ renderAll (pairItems
      [((48, 49), [32]), ((48, 50), [32]), ((48, 51), [32]), ((48, 52), [])]))
      = strBytes "01 02 03 04" from by decide] at h
  exact h

/-- C7: round-trip.  Encoding any byte sequence to two-digit-per-byte
lowercase (or uppercase) hex text with no separators and decoding it
reproduces the sequence exactly. -/
theorem claim_C7_round_trip :
    ∀ bs : List Nat, (∀ b ∈ bs, b < 256) →
      decode_hex (encode_hex_lower bs) = some bs
        ∧ decode_hex (encode_hex_upper bs) = some bs := by
  intro bs h
  constructor
  · rw [encode_lower_render]
    have hd := decode_hex_render [] (encodeItems encode_digit_lower bs)
      (fun c hc => nomatch hc)
      (encodeItems_wf (fun n hn => to_ordinal_encode_lower hn) h)
    rw [bytesOf_encodeItems (fun n hn => to_ordinal_encode_lower hn) bs h] at hd
    simpa using hd
  · rw [encode_upper_render]
    have hd := decode_hex_render [] (encodeItems encode_digit_upper bs)
      (fun c hc => nomatch hc)
      (encodeItems_wf (fun n hn => to_ordinal_encode_upper hn) h)
    rw [bytesOf_encodeItems (fun n hn => to_ordinal_encode_upper hn) bs h] at hd
    simpa using hd

/-- Witness for C7 at the byte sequence `[222, 0, 255]`. -/
theorem claim_C7_witness :
    (∀ b ∈ [222, 0, 255], b < 256) ∧
    decode_hex (encode_hex_lower [222, 0, 255]) = some [222, 0, 255] ∧
    decode_hex (encode_hex_upper [222, 0, 255]) = some [222, 0, 255] :=
  ⟨by decide, (claim_C7_round_trip [222, 0, 255] (by decide)).1,
    (claim_C7_round_trip [222, 0, 255] (by decide)).2⟩

/-- C8: digit conversion maps `0`-`9` to 0-9, `A`-`F` and `a`-`f` to 10-15,
panics on anything else; an output byte is `hi * 16 + lo`; decoding is
case-insensitive on the spec's example. -/
theorem claim_C8_digit_conversion :
    (∀ c, 48 ≤ c → c ≤ 57 → to_ordinal c = some (c - 48)) ∧
    (∀ c, 65 ≤ c → c ≤ 70 → to_ordinal c = some (c - 65 + 10)) ∧
    (∀ c, 97 ≤ c → c ≤ 102 → to_ordinal c = some (c - 97 + 10)) ∧
    (∀ c, ¬ (48 ≤ c ∧ c ≤ 57) → ¬ (65 ≤ c ∧ c ≤ 70) → ¬ (97 ≤ c ∧ c ≤ 102) →
      to_ordinal c = none) ∧
    (∀ h l hv lv, to_ordinal h = some hv → to_ordinal l = some lv →
      decode_hex [h, l] = some [hv * 16 + lv]) ∧
    decode_hex (strBytes "a1b2") = some [0xA1, 0xB2] ∧
    decode_hex (strBytes "A1B2") = some [0xA1, 0xB2] := by
  refine ⟨?_, ?_, ?_, ?_, ?_, by decide, by decide⟩
  · intro c h1 h2
    simp only [to_ordinal]
    rw [if_pos ⟨h1, h2⟩]
  · intro c h1 h2
    simp only [to_ordinal]
    rw [if_neg (by omega), if_pos ⟨h1, h2⟩]
  · intro c h1 h2
    simp only [to_ordinal]
    rw [if_neg (by omega), if_neg (by omega), if_pos ⟨h1, h2⟩]
  · intro c h1 h2 h3
    simp only [to_ordinal]
    rw [if_neg h1, if_neg h2, if_neg h3]
  · intro h l hv lv hhv hlv
    have hd := decode_hex_render [] [(HexItem.pair h [] l, [])]
      (fun c hc => nomatch hc)
      (by
        intro p hp
        simp only [List.mem_singleton] at hp
        subst hp
        exact ⟨⟨by rw [hhv]; rfl, by rw [hlv]; rfl, fun c hc => nomatch hc⟩,
          fun c hc => nomatch hc⟩)
    simp only [renderAll, HexItem.render, bytesOf, HexItem.byteOf, hhv, hlv,
      Option.getD_some, List.nil_append, List.append_nil] at hd
    exact hd

/-- Witness for C8's pair rule at `decode_hex "a1"`. -/
theorem claim_C8_witness : decode_hex [97, 49] = some [10 * 16 + 1] :=
  claim_C8_digit_conversion.2.2.2.2.1 97 49 10 1 (by decide) (by decide)

/-- C9: empty input decodes to the empty byte sequence without error. -/
theorem claim_C9_empty :
    decode_hex (strBytes "") = some [] ∧ decode_hex [] = some [] := by decide

/-- C10: a `0x`/`0X` marker is recognized at every pair position, not only
at the start: in any well-formed input each marker (its `0`, an optional
separator run, then `x` or `X`) contributes two skipped bytes and no output
byte, while the digit pairs decode in order; the spec's two examples
evaluate accordingly. -/
theorem claim_C10_marker_anywhere :
    (∀ (lead : List Nat) (items : List (HexItem × List Nat)),
      DelimRun lead → ItemsWF items →
      decode_hex (lead ++ renderAll items) = some (bytesOf items) ∧
      count_skipped (lead ++ renderAll items)
        = some (lead.length + skipOf items)) ∧
    decode_hex (strBytes "0x12 0x34") = some [0x12, 0x34] ∧
    decode_hex (strBytes "12 0x 34") = some [0x12, 0x34] := by
  refine ⟨?_, by decide, by decide⟩
  intro lead items hlead hwf
  exact ⟨decode_hex_render lead items hlead hwf,
    count_skipped_render lead items hlead hwf⟩

/-- Witness for C10 at `"0x12"`: one marker then one pair. -/
theorem claim_C10_witness : decode_hex (strBytes "0x12") = some [0x12] := by
  have h := (claim_C10_marker_anywhere.1 []
    [(HexItem.pfx [] 120, []), (HexItem.pair 49 [] 50, [])]
    (by decide) (by decide)).1
  rw [show (([] : List Nat) ++ renderAll [(HexItem.pfx [] 120, []),
      (HexItem.pair 49 [] 50, [])]) = strBytes "0x12" from by decide] at h
  rw [show bytesOf [(HexItem.pfx [] 120, []), (HexItem.pair 49 [] 50, [])]
      = [0x12] from by decide] at h
  exact h

end Hexlit
